import Mathlib

/-!
Verification of the Czech phonetic-transcription module (`transcription.py`).

The module is embedded shallowly: strings are `List Char`, every `re.sub`
call becomes a small structurally recursive rewriter that scans left to
right and resumes after each non-overlapping match, exactly as `re.sub`
does for these patterns, and the one partial function of the module
(`_voicing_assim`, which evaluates `result[1]` and so raises `IndexError`
when the accumulator is the one-character string `" "`) returns an
`Option`.  Python's `str.casefold` and the regex classes `\w` and `\s`
are modelled by their restriction to the alphabet the module manipulates
(ASCII plus the Czech letters and phonetic symbols appearing in the
rules); this restriction is the only abstraction in the embedding.
-/

namespace CsTrans

/-- Whitespace, the model of the regex class `\s` and of the character
set stripped by `str.strip`. -/
def isWs (c : Char) : Bool :=
  c == ' ' || c == '\t' || c == '\n' || c == '\r' || c == '\x0b' || c == '\x0c'

/-- Letters outside ASCII that occur in the module's rules (lower- and
uppercase Czech letters and the phonetic symbols). -/
def extraWord : List Char :=
  "áéíóúůýčďěňřšťžʒɮɣŋɱÁÉÍÓÚŮÝČĎĚŇŘŠŤŽ".toList

/-- Word characters: model of the regex class `\w` restricted to the
module's alphabet. -/
def wch (c : Char) : Bool :=
  ('a' ≤ c && c ≤ 'z') || ('A' ≤ c && c ≤ 'Z') || ('0' ≤ c && c ≤ '9')
    || c == '_' || extraWord.contains c

/-- Case-folding pairs: model of `str.casefold` restricted to the
module's alphabet (ASCII letters and Czech letters). -/
def cfPairs : List (Char × Char) :=
  [('A','a'),('B','b'),('C','c'),('D','d'),('E','e'),('F','f'),('G','g'),
   ('H','h'),('I','i'),('J','j'),('K','k'),('L','l'),('M','m'),('N','n'),
   ('O','o'),('P','p'),('Q','q'),('R','r'),('S','s'),('T','t'),('U','u'),
   ('V','v'),('W','w'),('X','x'),('Y','y'),('Z','z'),
   ('Á','á'),('É','é'),('Í','í'),('Ó','ó'),('Ú','ú'),('Ů','ů'),('Ý','ý'),
   ('Č','č'),('Ď','ď'),('Ě','ě'),('Ň','ň'),('Ř','ř'),('Š','š'),('Ť','ť'),('Ž','ž')]

def lookupCf : List (Char × Char) → Char → Char
  | [], c => c
  | (k, v) :: rest, c => if c = k then v else lookupCf rest c

/-- Case-fold one character. -/
def cf (c : Char) : Char := lookupCf cfPairs c

/-- `re.sub` for a single-character literal pattern `a` with replacement
`r`. -/
def sub1 (a : Char) (r : List Char) : List Char → List Char
  | [] => []
  | c :: rest => if c = a then r ++ sub1 a r rest else c :: sub1 a r rest

/-- `re.sub` for a two-character pattern: first character constrained by
`p`, second by `q`, replacement computed from the two matched characters.
After a match the scan resumes after the second character, as `re.sub`
does for non-overlapping matches. -/
def sub2 (p q : Char → Bool) (repl : Char → Char → List Char) : List Char → List Char
  | c :: d :: rest =>
    if p c && q d then repl c d ++ sub2 p q repl rest
    else c :: sub2 p q repl (d :: rest)
  | s => s

/-- Test whether the first list starts the second one. -/
def begins : List Char → List Char → Bool
  | [], _ => true
  | _ :: _, [] => false
  | p :: ps, c :: cs => p == c && begins ps cs

/-- `re.sub` for a multi-character literal pattern, written with explicit
fuel so that the recursion is structural; the wrapper `subL` passes the
length of the string as fuel, which is sufficient because every step
consumes at least one input character (all patterns are non-empty). -/
def substLitF (pat repl : List Char) : Nat → List Char → List Char
  | 0, s => s
  | _ + 1, [] => []
  | fuel + 1, c :: rest =>
    if begins pat (c :: rest) then repl ++ substLitF pat repl fuel (List.drop pat.length (c :: rest))
    else c :: substLitF pat repl fuel rest

/-- `re.sub(pat, repl, s)` for a literal pattern. -/
def subL (pat repl : String) (s : List Char) : List Char :=
  substLitF pat.toList repl.toList s.length s

/-- Word-boundary test before a word character: `\b` holds there exactly
when the previous character is absent or not a word character. -/
def bnd : Option Char → Bool
  | none => true
  | some p => !wch p

/-- `re.sub` for a literal pattern anchored by a leading `\b` (all such
patterns in the module start with a word character).  The `Option Char`
argument is the character preceding the scan position in the original
string. -/
def subBLitF (pat repl : List Char) : Nat → Option Char → List Char → List Char
  | 0, _, s => s
  | _ + 1, _, [] => []
  | fuel + 1, prev, c :: rest =>
    if bnd prev && begins pat (c :: rest) then
      repl ++ subBLitF pat repl fuel ((c :: rest)[pat.length - 1]?) (List.drop pat.length (c :: rest))
    else c :: subBLitF pat repl fuel (some c) rest

def subBL (pat repl : String) (s : List Char) : List Char :=
  subBLitF pat.toList repl.toList s.length none s

/-- The vowel class of the rule for the prefix ex-. -/
def vowEx : List Char := "aeiouáéíóúů".toList

/-- The rule replacing word-initial ex- before a vowel by egz-. -/
def subBexF : Nat → Option Char → List Char → List Char
  | 0, _, s => s
  | _ + 1, _, [] => []
  | fuel + 1, prev, c :: rest =>
    if bnd prev && c == 'e' then
      match rest with
      | 'x' :: v :: rest2 =>
        if vowEx.contains v then 'e' :: 'g' :: 'z' :: v :: subBexF fuel (some v) rest2
        else c :: subBexF fuel (some c) rest
      | _ => c :: subBexF fuel (some c) rest
    else c :: subBexF fuel (some c) rest

def subBex (s : List Char) : List Char := subBexF s.length none s

/-- The rule rewriting word-initial rádi before a non-space character. -/
def subRadiF : Nat → Option Char → List Char → List Char
  | 0, _, s => s
  | _ + 1, _, [] => []
  | fuel + 1, prev, c :: rest =>
    if bnd prev && begins "rádi".toList (c :: rest) then
      match List.drop 4 (c :: rest) with
      | v :: rest2 =>
        if !isWs v then "rády".toList ++ v :: subRadiF fuel (some v) rest2
        else c :: subRadiF fuel (some c) rest
      | [] => c :: subRadiF fuel (some c) rest
    else c :: subRadiF fuel (some c) rest

def subRadi (s : List Char) : List Char := subRadiF s.length none s

/-- The rule for the pattern of a q with an optional following u. -/
def subQu : List Char → List Char
  | [] => []
  | 'q' :: 'u' :: rest => 'k' :: 'v' :: subQu rest
  | 'q' :: rest => 'k' :: 'v' :: subQu rest
  | c :: rest => c :: subQu rest

mutual
/-- `re.sub` collapsing every maximal whitespace run to one space: the
main scanning state. -/
def collapseWs : List Char → List Char
  | [] => []
  | c :: rest => if isWs c then ' ' :: collapseAfterWs rest else c :: collapseWs rest

/-- State inside a whitespace run whose single replacement space has
already been emitted. -/
def collapseAfterWs : List Char → List Char
  | [] => []
  | c :: rest => if isWs c then collapseAfterWs rest else c :: collapseWs rest
end

/-- `str.strip`: drop leading and trailing whitespace. -/
def strip (s : List Char) : List Char :=
  (((s.dropWhile isWs).reverse).dropWhile isWs).reverse

/-- Replacement of the two tokenizing rules of `normalize`: keep both
matched characters and put one space between them. -/
def spaceRepl (c d : Char) : List Char := [c, ' ', d]

/-- `Transcription.normalize`: case-fold, separate word and non-word
characters by a space (both directions), collapse whitespace runs, and
strip. -/
def normalize (s : List Char) : List Char :=
  strip (collapseWs (sub2 (fun c => !wch c) (fun d => wch d) spaceRepl
    (sub2 (fun c => wch c) (fun d => !wch d) spaceRepl (List.map cf s))))

/-- `Transcription._ě`: palatalization induced by the letter ě. -/
def «ě» (s : List Char) : List Char :=
  let s := sub2 (fun c => "bpfv".toList.contains c) (fun d => d == 'ě') (fun c _ => [c, 'j', 'e']) s
  let s := sub2 (fun c => c == 'd') (fun d => d == 'ě') (fun _ _ => ['ď', 'e']) s
  let s := sub2 (fun c => c == 't') (fun d => d == 'ě') (fun _ _ => ['ť', 'e']) s
  let s := sub2 (fun c => c == 'n') (fun d => d == 'ě') (fun _ _ => ['ň', 'e']) s
  let s := sub2 (fun c => c == 'm') (fun d => d == 'ě') (fun _ _ => ['m', 'ň', 'e']) s
  sub1 'ě' ['j', 'e'] s

/-- `Transcription._i_í`: palatalization induced by i and í. -/
def «i_í» (s : List Char) : List Char :=
  let s := sub2 (fun c => c == 'd') (fun d => d == 'i') (fun _ _ => ['ď', 'i']) s
  let s := sub2 (fun c => c == 't') (fun d => d == 'i') (fun _ _ => ['ť', 'i']) s
  let s := sub2 (fun c => c == 'n') (fun d => d == 'i') (fun _ _ => ['ň', 'i']) s
  let s := sub2 (fun c => c == 'd') (fun d => d == 'í') (fun _ _ => ['ď', 'í']) s
  let s := sub2 (fun c => c == 't') (fun d => d == 'í') (fun _ _ => ['ť', 'í']) s
  sub2 (fun c => c == 'n') (fun d => d == 'í') (fun _ _ => ['ň', 'í']) s

/-- `Transcription._collapse_expand`: digraph collapsing and grapheme
expansion. -/
def collapse_expand (s : List Char) : List Char :=
  let s := sub1 'x' ['k', 's'] s
  let s := subQu s
  let s := sub2 (fun c => c == 'c') (fun d => d == 'h') (fun _ _ => ['x']) s
  let s := sub2 (fun c => c == 'd') (fun d => d == 'z') (fun _ _ => ['ʒ']) s
  sub2 (fun c => c == 'd') (fun d => d == 'ž') (fun _ _ => ['ɮ']) s

/-- `Transcription._foreign`. -/
def foreign (s : List Char) : List Char := sub1 'w' ['v'] s

/-- `Transcription._trigger_devoicing` (note the doubled x, as in the
source). -/
def triggerDevoicingS : List Char := "ptťksšcčxxf".toList

/-- `Transcription._devoiced`, defined in the source as equal to the
devoicing-trigger string. -/
def devoicedS : List Char := triggerDevoicingS

/-- `Transcription._trigger_voicing`. -/
def triggerVoicingS : List Char := "bdďgzžʒɮhɣ".toList

/-- `Transcription._voiced`: the voicing triggers plus v. -/
def voicedS : List Char := triggerVoicingS ++ ['v']

/-- Model of the dictionary built by `str.maketrans`: when a key occurs
twice the later pair overrides the earlier one, and characters outside
the table translate to themselves. -/
def lookupLastAux : List (Char × Char) → Char → Option Char → Char
  | [], c, acc => acc.getD c
  | (k, v) :: rest, c, acc => lookupLastAux rest c (if c = k then some v else acc)

/-- `Transcription._devoiced2voiced` as a function on characters (x maps
to ɣ because the second x pair overrides the first). -/
def devoiced2voiced (c : Char) : Char := lookupLastAux (devoicedS.zip voicedS) c none

/-- `Transcription._voiced2devoiced` as a function on characters. -/
def voiced2devoiced (c : Char) : Char := lookupLastAux (voicedS.zip devoicedS) c none

/-- First transformation of the loop body of `_voicing_assim`: a voiced
character standing before an already-emitted space is devoiced. -/
def vaChar1 (acc : List Char) (c : Char) : Char :=
  if acc.head? = some ' ' ∧ voicedS.contains c = true then voiced2devoiced c else c

/-- Trigger-based transformation of the loop body of `_voicing_assim`,
driven by the previous phone `p`. -/
def vaChar2 (p c : Char) : Char :=
  if triggerDevoicingS.contains p = true ∧ voicedS.contains c = true then voiced2devoiced c
  else if triggerVoicingS.contains p = true ∧ devoicedS.contains c = true then devoiced2voiced c
  else c

/-- The assignment of `previous_phone` at the end of the loop body:
`result[1] if result[0] == " " else result[0]`; the value `none` models
the `IndexError` raised when the accumulator is the one-character string
consisting of a space. -/
def vaNext (acc : List Char) : Option Char :=
  match acc with
  | [] => none
  | a :: rest => if a = ' ' then rest.head? else some a

/-- The loop of `_voicing_assim` over the reversed string: `acc` is the
accumulator `result`, `pp` the variable `previous_phone` (`none` while it
is still unassigned). -/
def vaGo : List Char → Option Char → List Char → Option (List Char)
  | acc, _, [] => some acc
  | acc, pp, c :: cs =>
    let c1 := vaChar1 acc c
    match acc, pp with
    | [], _ =>
      let acc1 := [if voicedS.contains c1 = true then voiced2devoiced c1 else c1]
      match vaNext acc1 with
      | none => none
      | some p => vaGo acc1 (some p) cs
    | _ :: _, none => none
    | _ :: _, some p =>
      let acc1 := vaChar2 p c1 :: acc
      match vaNext acc1 with
      | none => none
      | some q => vaGo acc1 (some q) cs

/-- `Transcription._voicing_assim`; `none` models the raised
`IndexError`. -/
def voicing_assim (s : List Char) : Option (List Char) := vaGo [] none s.reverse

/-- `Transcription._unify`. -/
def unify (s : List Char) : List Char :=
  let s := sub1 'ů' ['ú'] s
  let s := sub1 'y' ['i'] s
  sub1 'ý' ['í'] s

/-- `Transcription._hiatus`: insert j between i/í and a following
vowel. -/
def hiatus (s : List Char) : List Char :=
  sub2 (fun c => "ií".toList.contains c) (fun d => "aeiouáéíóú".toList.contains d)
    (fun c d => [c, 'j', d]) s

/-- `Transcription._heuristic`. -/
def heuristic (s : List Char) : List Char :=
  let s := sub2 (fun c => c == 'n') (fun d => d == 'k') (fun _ _ => ['ŋ', 'k']) s
  let s := sub2 (fun c => c == 'n') (fun d => d == 'g') (fun _ _ => ['ŋ', 'g']) s
  let s := sub2 (fun c => c == 'm') (fun d => d == 'v') (fun _ _ => ['ɱ', 'v']) s
  let s := sub2 (fun c => c == 'm') (fun d => d == 'f') (fun _ _ => ['ɱ', 'f']) s
  let s := sub2 (fun c => c == 'n') (fun d => d == 'ť') (fun _ _ => ['ň', 'ť']) s
  let s := sub2 (fun c => c == 'n') (fun d => d == 'ď') (fun _ _ => ['ň', 'ď']) s
  let s := sub2 (fun c => c == 'n') (fun d => d == 'ň') (fun _ _ => ['ň']) s
  let s := sub2 (fun c => c == 'c') (fun d => d == 'c') (fun _ _ => ['c']) s
  let s := sub2 (fun c => c == 'd') (fun d => d == 'd') (fun _ _ => ['d']) s
  let s := sub2 (fun c => c == 'j') (fun d => d == 'j') (fun _ _ => ['j']) s
  let s := sub2 (fun c => c == 'k') (fun d => d == 'k') (fun _ _ => ['k']) s
  let s := sub2 (fun c => c == 'l') (fun d => d == 'l') (fun _ _ => ['l']) s
  let s := sub2 (fun c => c == 'n') (fun d => d == 'n') (fun _ _ => ['n']) s
  let s := sub2 (fun c => c == 'm') (fun d => d == 'm') (fun _ _ => ['m']) s
  let s := sub2 (fun c => c == 's') (fun d => d == 's') (fun _ _ => ['s']) s
  let s := sub2 (fun c => c == 't') (fun d => d == 't') (fun _ _ => ['t']) s
  let s := sub2 (fun c => c == 'z') (fun d => d == 'z') (fun _ _ => ['z']) s
  let s := sub2 (fun c => c == 'č') (fun d => d == 'č') (fun _ _ => ['č']) s
  sub2 (fun c => c == 'š') (fun d => d == 'š') (fun _ _ => ['š']) s

/-- `Transcription._init_scp`: the ordered lexical-exception rules, in
source order. -/
def init_scp (s : List Char) : List Char :=
  let s := subL "ccitt" "cécéítété" s
  let s := subL "nism" "nyzm" s
  let s := subL "nist" "nyst" s
  let s := subL "anti" "anty" s
  let s := subL "akti" "akty" s
  let s := subL "atik" "atyk" s
  let s := subL "tick" "tyck" s
  let s := subL "kandi" "kandy" s
  let s := subL "nie" "nye" s
  let s := subL "nii" "nyi" s
  let s := subL "arkti" "arkty" s
  let s := subL "atrakti" "atrakty" s
  let s := subL "audi" "audy" s
  let s := subL "automati" "automaty" s
  let s := subL "causa" "kauza" s
  let s := subL "celsia" "celzia" s
  let s := subL "chil" "čil" s
  let s := subL "danih" "danyh" s
  let s := subL "efektiv" "efektyv" s
  let s := subL "finiti" "finyty" s
  let s := subL "dealer" "dýler" s
  let s := subL "diag" "dyag" s
  let s := subL "diet" "dyet" s
  let s := subL "dif" "dyf" s
  let s := subL "dig" "dyg" s
  let s := subL "dikt" "dykt" s
  let s := subL "dilet" "dylet" s
  let s := subL "dipl" "dypl" s
  let s := subL "dirig" "dyryg" s
  let s := subL "disk" "dysk" s
  let s := subL "display" "dysplej" s
  let s := subL "disp" "dysp" s
  let s := subL "dist" "dyst" s
  let s := subL "divide" "dyvide" s
  let s := subL "dukti" "dukty" s
  let s := subL "edic" "edyc" s
  let s := subL "error" "eror" s
  let s := subBex s
  let s := subL "elektroni" "elektrony" s
  let s := subL "energetik" "energetyk" s
  let s := subL "etik" "etyk" s
  let s := subL "femini" "feminy" s
  let s := subL "finiš" "finyš" s
  let s := subL "monie" "monye" s
  let s := subL "geneti" "genety" s
  let s := subL "gieni" "gieny" s
  let s := subL "imuni" "imuny" s
  let s := subL "indiv" "indyv" s
  let s := subL "inici" "inyci" s
  let s := subL "investi" "investy" s
  let s := subL "karati" "karaty" s
  let s := subL "kardi" "kardy" s
  let s := subL "klaus" "klauz" s
  let s := subL "komuni" "komuny" s
  let s := subL "kondi" "kondy" s
  let s := subL "kredit" "kredyt" s
  let s := subL "kriti" "krity" s
  let s := subL "komodit" "komodyt" s
  let s := subL "konsor" "konzor" s
  let s := subL "leasing" "lízing" s
  let s := subL "giti" "gity" s
  let s := subL "medi" "medy" s
  let s := subL "motiv" "motyv" s
  let s := subL "manag" "menedž" s
  let s := subL "nsti" "nsty" s
  let s := subL "temati" "tematy" s
  let s := subL "mini" "miny" s
  let s := subL "minus" "mínus" s
  let s := subL "ing" "yng" s
  let s := subL "gativ" "gatyv" s
  let s := subL "mati" "maty" s
  let s := subL "manip" "manyp" s
  let s := subL "moderni" "moderny" s
  let s := subL "organi" "organy" s
  let s := subL "optim" "optym" s
  let s := subL "panick" "panyck" s
  let s := subL "pediatr" "pedyatr" s
  let s := subL "perviti" "pervity" s
  let s := subL "politi" "polity" s
  let s := subL "pozit" "pozyt" s
  let s := subL "privati" "privaty" s
  let s := subL "prostitu" "prostytu" s
  let s := subL "radik" "radyk" s
  let s := subBL "radio" "radyo" s
  let s := subL "relativ" "relatyv" s
  let s := subL "restitu" "restytu" s
  let s := subL "rock" "rok" s
  let s := subL "rutin" "rutyn" s
  let s := subRadi s
  let s := subL "shop" "šop" s
  let s := subBL "sho" "scho" s
  let s := subL "softwar" "softvér" s
  let s := subL "sortim" "sortym" s
  let s := subL "spektiv" "spektyv" s
  let s := subL "superlativ" "superlatyv" s
  let s := subL "nj" "ň" s
  let s := subL "statisti" "statysty" s
  let s := subL "stik" "styk" s
  let s := subL "stimul" "stymul" s
  let s := subL "studi" "study" s
  let s := subL "techni" "techny" s
  let s := subL "telecom" "telekom" s
  let s := subL "telefoni" "telefony" s
  let s := subL "tetik" "tetyk" s
  let s := subL "textil" "textyl" s
  let s := subL "tibet" "tybet" s
  let s := subL "tirany" "tyrany" s
  let s := subL "titul" "tytul" s
  let s := subL "tradi" "trady" s
  let s := subL "univer" "unyver" s
  let s := subL "venti" "venty" s
  subL "vertik" "vertyk" s

/-- `Transcription._postprocess`. -/
def postprocess (s : List Char) : List Char :=
  let s := sub1 'ɮ' ['ʒ', 'ʒ'] s
  sub1 'x' ['c', 'h'] s

/-- `Transcription._transcribe`: the full pipeline; `none` models the
exception propagated out of `_voicing_assim`. -/
def transcribe (s : List Char) : Option (List Char) :=
  match voicing_assim («i_í» («ě» (collapse_expand (foreign (init_scp (normalize s)))))) with
  | none => none
  | some f => some (postprocess (heuristic (hiatus (unify f))))

/-- The `Transcription` object: `strVal` is the value the object carries
as a `str` subclass, `ort` and `fon` are the two attributes set by
`__init__`. -/
structure Transcription where
  strVal : List Char
  ort : List Char
  fon : List Char
  deriving DecidableEq

/-- Construction `Transcription(s)`: the `str` value and `ort` are the
input itself, `fon` is computed by `_transcribe`; a raised exception
aborts construction. -/
def mkTranscription (s : List Char) : Option Transcription :=
  (transcribe s).map fun f => ⟨s, s, f⟩

/-! Concrete facts about the translation tables, established by
evaluation over the concrete character lists and lifted to statements
about arbitrary members. -/

theorem contains_iff_mem {l : List Char} {a : Char} : l.contains a = true ↔ a ∈ l := by
  simp

theorem v2d_not_voiced {c : Char} (h : voicedS.contains c = true) :
    voicedS.contains (voiced2devoiced c) = false := by
  have hall : voicedS.all (fun c => !voicedS.contains (voiced2devoiced c)) = true := by decide
  simpa using List.all_eq_true.mp hall c (contains_iff_mem.mp h)

theorem v2d_devoiced {c : Char} (h : voicedS.contains c = true) :
    devoicedS.contains (voiced2devoiced c) = true := by
  have hall : voicedS.all (fun c => devoicedS.contains (voiced2devoiced c)) = true := by decide
  simpa using List.all_eq_true.mp hall c (contains_iff_mem.mp h)

theorem v2d_ne_space {c : Char} (h : voicedS.contains c = true) :
    voiced2devoiced c ≠ ' ' := by
  have hall : voicedS.all (fun c => !(voiced2devoiced c == ' ')) = true := by decide
  simpa using List.all_eq_true.mp hall c (contains_iff_mem.mp h)

theorem d2v_v2d_ne_space {c : Char} (h : voicedS.contains c = true) :
    devoiced2voiced (voiced2devoiced c) ≠ ' ' := by
  have hall : voicedS.all (fun c => !(devoiced2voiced (voiced2devoiced c) == ' ')) = true := by decide
  simpa using List.all_eq_true.mp hall c (contains_iff_mem.mp h)

theorem trigV_voiced {c : Char} (h : triggerVoicingS.contains c = true) :
    voicedS.contains c = true := by
  have hall : triggerVoicingS.all (fun c => voicedS.contains c) = true := by decide
  simpa using List.all_eq_true.mp hall c (contains_iff_mem.mp h)

/-! Lemmas about the single-character rewriter, used for the
postprocessing claims. -/

theorem mem_sub1 (a : Char) (r : List Char) :
    ∀ s c, c ∈ sub1 a r s → (c ∈ s ∧ c ≠ a) ∨ c ∈ r := by
  intro s
  induction s with
  | nil => intro c h; simp [sub1] at h
  | cons x rest ih =>
    intro c h
    by_cases hx : x = a
    · rw [sub1, if_pos hx] at h
      rcases List.mem_append.mp h with h | h
      · exact Or.inr h
      · rcases ih c h with ⟨h1, h2⟩ | h1
        · exact Or.inl ⟨List.mem_cons_of_mem _ h1, h2⟩
        · exact Or.inr h1
    · rw [sub1, if_neg hx] at h
      rcases List.mem_cons.mp h with h | h
      · subst h; exact Or.inl ⟨List.mem_cons_self _ _, hx⟩
      · rcases ih c h with ⟨h1, h2⟩ | h1
        · exact Or.inl ⟨List.mem_cons_of_mem _ h1, h2⟩
        · exact Or.inr h1

theorem sub1_id (a : Char) (r : List Char) :
    ∀ s, a ∉ s → sub1 a r s = s := by
  intro s
  induction s with
  | nil => intro _; rfl
  | cons x rest ih =>
    intro h
    have hx : x ≠ a := fun he => h (he ▸ List.mem_cons_self _ _)
    rw [sub1, if_neg hx, ih (fun hm => h (List.mem_cons_of_mem _ hm))]

theorem not_mem_sub1_self (a : Char) (r : List Char) (hr : a ∉ r) (s : List Char) :
    a ∉ sub1 a r s := by
  intro h
  rcases mem_sub1 a r s a h with ⟨_, h2⟩ | h1
  · exact h2 rfl
  · exact hr h1

/-! Claim theorems (part 1). -/

set_option maxRecDepth 1000000 in
/-- Claim C1: for the reference input sentence, constructing a
`Transcription` and reading its `fon` field through the full pipeline
yields exactly the reference phonetic output. -/
theorem test_complex_fon :
    (mkTranscription "hřích by za ty choutky stál leč dobře".toList).map Transcription.fon =
      some "hříɣ bi za ti choutki stál leʒʒ dobře".toList := by
  decide

/-- Claim C6: the two translation tables are exact inverses on the
paired subset: every voiced character except h returns to itself after
devoicing then voicing, and every devoiced character returns to itself
after voicing then devoicing. -/
theorem tables_inverse :
    (∀ c ∈ voicedS, c ≠ 'h' → devoiced2voiced (voiced2devoiced c) = c) ∧
    (∀ c ∈ "ptťksšcčxf".toList, voiced2devoiced (devoiced2voiced c) = c) := by
  decide

/-- Witness for C6 at the concrete pair b and p. -/
theorem tables_inverse_witness :
    devoiced2voiced (voiced2devoiced 'b') = 'b' ∧
    voiced2devoiced (devoiced2voiced 'p') = 'p' :=
  ⟨tables_inverse.1 'b' (by decide) (by decide), tables_inverse.2 'p' (by decide)⟩

/-- Claim C8: the postprocessor is idempotent. -/
theorem postprocess_idem (s : List Char) :
    postprocess (postprocess s) = postprocess s := by
  show sub1 'x' ['c', 'h'] (sub1 'ɮ' ['ʒ', 'ʒ'] (sub1 'x' ['c', 'h'] (sub1 'ɮ' ['ʒ', 'ʒ'] s)))
    = sub1 'x' ['c', 'h'] (sub1 'ɮ' ['ʒ', 'ʒ'] s)
  have h1 : 'ɮ' ∉ sub1 'x' ['c', 'h'] (sub1 'ɮ' ['ʒ', 'ʒ'] s) := by
    intro h
    rcases mem_sub1 _ _ _ _ h with ⟨h1, _⟩ | h1
    · rcases mem_sub1 _ _ _ _ h1 with ⟨_, h3⟩ | h3
      · exact h3 rfl
      · simp at h3
    · simp at h1
  rw [sub1_id _ _ _ h1]
  have h2 : 'x' ∉ sub1 'x' ['c', 'h'] (sub1 'ɮ' ['ʒ', 'ʒ'] s) :=
    not_mem_sub1_self _ _ (by decide) _
  rw [sub1_id _ _ _ h2]

/-- Claim C10: construction preserves the original: the object's `str`
value and its `ort` attribute are both the input string. -/
theorem construction_preserves_ort (s : List Char) (t : Transcription)
    (h : mkTranscription s = some t) : t.ort = s ∧ t.strVal = s := by
  unfold mkTranscription at h
  cases ht : transcribe s with
  | none => rw [ht] at h; simp at h
  | some f =>
    rw [ht] at h
    simp only [Option.map_some', Option.some.injEq] at h
    rw [← h]
    exact ⟨rfl, rfl⟩

set_option maxRecDepth 1000000 in
/-- Witness for C10 at the concrete input "ab" (transcribed to "ap" by
utterance-final devoicing). -/
theorem construction_preserves_ort_witness :
    (⟨"ab".toList, "ab".toList, "ap".toList⟩ : Transcription).ort = "ab".toList ∧
    (⟨"ab".toList, "ab".toList, "ap".toList⟩ : Transcription).strVal = "ab".toList :=
  construction_preserves_ort "ab".toList _ (by decide)

/-- Claim C2 counterexample: in "b za" the voiced b immediately precedes
a space, yet the emitted character at its position is b itself (re-voiced
by the following voicing trigger z), not the devoiced counterpart p. -/
theorem word_final_devoicing_cex :
    "b za".toList[0]? = some 'b' ∧ voicedS.contains 'b' = true ∧
    "b za".toList[1]? = some ' ' ∧ voiced2devoiced 'b' = 'p' ∧
    (voicing_assim "b za".toList).map (fun l => l[0]?) = some (some 'b') ∧
    ('b' : Char) ≠ 'p' := by
  decide

/-- Claim C4 counterexample: on "h za" the voicing assimilator emits ɣ
for the input character h, and ɣ is neither h itself nor the devoiced
nor the voiced counterpart of h under the two tables. -/
theorem voicing_closure_cex :
    "h za".toList[0]? = some 'h' ∧
    voicing_assim "h za".toList = some "ɣ za".toList ∧
    "ɣ za".toList[0]? = some 'ɣ' ∧
    ('ɣ' : Char) ≠ 'h' ∧ ('ɣ' : Char) ≠ voiced2devoiced 'h' ∧
    ('ɣ' : Char) ≠ devoiced2voiced 'h' := by
  decide

/-- Claim C5 counterexample: the voicing assimilator is not total: on the
one-character string consisting of a space it raises (the model returns
`none`, mirroring the IndexError from evaluating `result[1]`). -/
theorem stage_total_cex : voicing_assim " ".toList = none := by decide


/-! Lemmas about the voicing-assimilation loop. -/

theorem vaChar1_nil (c : Char) : vaChar1 [] c = c := by
  simp [vaChar1]

theorem vaChar1_not_voiced {c : Char} (acc : List Char)
    (hc : voicedS.contains c = false) : vaChar1 acc c = c := by
  have hc2 : c ∉ voicedS := by simpa using hc
  simp [vaChar1, hc2]

theorem vaChar2_keep {p c : Char} (hcv : voicedS.contains c = false)
    (hp : voicedS.contains p = false) : vaChar2 p c = c := by
  have hp2 : triggerVoicingS.contains p = false := by
    cases hq : triggerVoicingS.contains p
    · rfl
    · rw [trigV_voiced hq] at hp; cases hp
  have hcv2 : c ∉ voicedS := by simpa using hcv
  have hp3 : p ∉ triggerVoicingS := by simpa using hp2
  simp [vaChar2, hcv2, hp3]

theorem vaNext_cons (e : Char) (l : List Char) :
    vaNext (e :: l) = if e = ' ' then l.head? else some e := rfl

theorem vaGo_nil (acc : List Char) (pp : Option Char) : vaGo acc pp [] = some acc := by
  cases acc <;> cases pp <;> rfl

theorem vaGo_cons_nil (pp : Option Char) (c : Char) (cs : List Char) :
    vaGo [] pp (c :: cs) =
      match vaNext [if voicedS.contains (vaChar1 [] c) = true
          then voiced2devoiced (vaChar1 [] c) else vaChar1 [] c] with
      | none => none
      | some p => vaGo [if voicedS.contains (vaChar1 [] c) = true
          then voiced2devoiced (vaChar1 [] c) else vaChar1 [] c] (some p) cs := by
  cases pp <;> rfl

theorem vaGo_cons_none (a : Char) (acc : List Char) (c : Char) (cs : List Char) :
    vaGo (a :: acc) none (c :: cs) = none := rfl

theorem vaGo_cons_cons (a : Char) (acc : List Char) (p c : Char) (cs : List Char) :
    vaGo (a :: acc) (some p) (c :: cs) =
      match vaNext (vaChar2 p (vaChar1 (a :: acc) c) :: a :: acc) with
      | none => none
      | some q => vaGo (vaChar2 p (vaChar1 (a :: acc) c) :: a :: acc) (some q) cs := rfl

theorem vaGo_suffix :
    ∀ cs acc pp out, vaGo acc pp cs = some out →
      ∃ pre, out = pre ++ acc ∧ pre.length = cs.length := by
  intro cs
  induction cs with
  | nil =>
    intro acc pp out h
    rw [vaGo_nil] at h
    cases Option.some.inj h
    exact ⟨[], by simp, rfl⟩
  | cons c cs ih =>
    intro acc pp out h
    cases acc with
    | nil =>
      rw [vaGo_cons_nil] at h
      cases hv : vaNext [if voicedS.contains (vaChar1 [] c) = true
          then voiced2devoiced (vaChar1 [] c) else vaChar1 [] c] with
      | none => rw [hv] at h; cases h
      | some p =>
        rw [hv] at h
        simp only [] at h
        obtain ⟨pre1, hp1, hl1⟩ := ih _ _ _ h
        refine ⟨pre1 ++ [if voicedS.contains (vaChar1 [] c) = true
          then voiced2devoiced (vaChar1 [] c) else vaChar1 [] c], ?_, ?_⟩
        · simp [hp1]
        · simp [hl1]
    | cons a acc2 =>
      cases pp with
      | none => rw [vaGo_cons_none] at h; cases h
      | some p =>
        rw [vaGo_cons_cons] at h
        cases hv : vaNext (vaChar2 p (vaChar1 (a :: acc2) c) :: a :: acc2) with
        | none => rw [hv] at h; cases h
        | some q =>
          rw [hv] at h
          simp only [] at h
          obtain ⟨pre1, hp1, hl1⟩ := ih _ _ _ h
          refine ⟨pre1 ++ [vaChar2 p (vaChar1 (a :: acc2) c)], ?_, ?_⟩
          · simp [hp1]
          · simp [hl1]

theorem vaGo_total :
    ∀ cs acc p, acc ≠ [] → ∃ out, vaGo acc (some p) cs = some out := by
  intro cs
  induction cs with
  | nil => intro acc p _; exact ⟨acc, vaGo_nil acc (some p)⟩
  | cons c cs ih =>
    intro acc p hne
    cases acc with
    | nil => exact absurd rfl hne
    | cons a acc2 =>
      rw [vaGo_cons_cons]
      by_cases hsp : vaChar2 p (vaChar1 (a :: acc2) c) = ' '
      · have hv : vaNext (vaChar2 p (vaChar1 (a :: acc2) c) :: a :: acc2) = some a := by
          rw [vaNext_cons, if_pos hsp]; rfl
        rw [hv]
        simp only []
        exact ih _ a (by simp)
      · have hv : vaNext (vaChar2 p (vaChar1 (a :: acc2) c) :: a :: acc2) =
            some (vaChar2 p (vaChar1 (a :: acc2) c)) := by
          rw [vaNext_cons, if_neg hsp]
        rw [hv]
        simp only []
        exact ih _ _ (by simp)

theorem vaGo_keep :
    ∀ cs acc p, acc ≠ [] → (∀ x ∈ cs, voicedS.contains x = false) →
      (∀ x ∈ acc, voicedS.contains x = false) → voicedS.contains p = false →
      vaGo acc (some p) cs = some (cs.reverse ++ acc) := by
  intro cs
  induction cs with
  | nil => intro acc p _ _ _ _; simp [vaGo_nil]
  | cons c cs ih =>
    intro acc p hne hcs hacc hp
    cases acc with
    | nil => exact absurd rfl hne
    | cons a acc2 =>
      have hc : voicedS.contains c = false := hcs c (List.mem_cons_self _ _)
      have ha : voicedS.contains a = false := hacc a (List.mem_cons_self _ _)
      rw [vaGo_cons_cons, vaChar1_not_voiced _ hc, vaChar2_keep hc hp]
      have haccall : ∀ x ∈ c :: a :: acc2, voicedS.contains x = false := by
        intro x hx
        rcases List.mem_cons.mp hx with h | h
        · exact h ▸ hc
        · exact hacc x h
      by_cases hsp : c = ' '
      · have hv : vaNext (c :: a :: acc2) = some a := by
          rw [vaNext_cons, if_pos hsp]; rfl
        rw [hv]
        simp only []
        rw [ih (c :: a :: acc2) a (by simp) (fun x hx => hcs x (List.mem_cons_of_mem _ hx)) haccall ha]
        simp
      · have hv : vaNext (c :: a :: acc2) = some c := by
          rw [vaNext_cons, if_neg hsp]
        rw [hv]
        simp only []
        rw [ih (c :: a :: acc2) c (by simp) (fun x hx => hcs x (List.mem_cons_of_mem _ hx)) haccall hc]
        simp

/-- The character emitted for an input character is always the input
itself, its devoiced form, its voiced form, or the voiced form of its
devoiced form. -/
theorem vaChar_rel (acc : List Char) (p c : Char) :
    vaChar2 p (vaChar1 acc c) = c ∨ vaChar2 p (vaChar1 acc c) = voiced2devoiced c ∨
    vaChar2 p (vaChar1 acc c) = devoiced2voiced c ∨
    vaChar2 p (vaChar1 acc c) = devoiced2voiced (voiced2devoiced c) := by
  by_cases h1 : acc.head? = some ' ' ∧ voicedS.contains c = true
  · rw [vaChar1, if_pos h1, vaChar2,
      if_neg (fun hand => Bool.false_ne_true ((v2d_not_voiced h1.2).symm.trans hand.2))]
    by_cases h2 : triggerVoicingS.contains p = true ∧
        devoicedS.contains (voiced2devoiced c) = true
    · rw [if_pos h2]; exact Or.inr (Or.inr (Or.inr rfl))
    · rw [if_neg h2]; exact Or.inr (Or.inl rfl)
  · rw [vaChar1, if_neg h1, vaChar2]
    by_cases h2 : triggerDevoicingS.contains p = true ∧ voicedS.contains c = true
    · rw [if_pos h2]; exact Or.inr (Or.inl rfl)
    · rw [if_neg h2]
      by_cases h3 : triggerVoicingS.contains p = true ∧ devoicedS.contains c = true
      · rw [if_pos h3]; exact Or.inr (Or.inr (Or.inl rfl))
      · rw [if_neg h3]; exact Or.inl rfl

/-- Relation between an input character and the character emitted for
it by the voicing assimilator. -/
def vaRel (c d : Char) : Prop :=
  d = c ∨ d = voiced2devoiced c ∨ d = devoiced2voiced c ∨
    d = devoiced2voiced (voiced2devoiced c)

theorem vaGo_rel :
    ∀ cs acc pp out, vaGo acc pp cs = some out →
      ∃ pre, out = pre ++ acc ∧ List.Forall₂ vaRel cs.reverse pre := by
  intro cs
  induction cs with
  | nil =>
    intro acc pp out h
    rw [vaGo_nil] at h
    cases Option.some.inj h
    exact ⟨[], by simp, by simp⟩
  | cons c cs ih =>
    intro acc pp out h
    cases acc with
    | nil =>
      rw [vaGo_cons_nil] at h
      cases hv : vaNext [if voicedS.contains (vaChar1 [] c) = true
          then voiced2devoiced (vaChar1 [] c) else vaChar1 [] c] with
      | none => rw [hv] at h; cases h
      | some p =>
        rw [hv] at h
        simp only [] at h
        obtain ⟨pre1, hp1, hrel1⟩ := ih _ _ _ h
        refine ⟨pre1 ++ [if voicedS.contains (vaChar1 [] c) = true
          then voiced2devoiced (vaChar1 [] c) else vaChar1 [] c], by simp [hp1], ?_⟩
        rw [List.reverse_cons]
        refine List.rel_append hrel1 ?_
        refine List.Forall₂.cons ?_ List.Forall₂.nil
        rw [vaChar1_nil]
        by_cases hvc : voicedS.contains c = true
        · rw [if_pos hvc]; exact Or.inr (Or.inl rfl)
        · rw [if_neg hvc]; exact Or.inl rfl
    | cons a acc2 =>
      cases pp with
      | none => rw [vaGo_cons_none] at h; cases h
      | some p =>
        rw [vaGo_cons_cons] at h
        cases hv : vaNext (vaChar2 p (vaChar1 (a :: acc2) c) :: a :: acc2) with
        | none => rw [hv] at h; cases h
        | some q =>
          rw [hv] at h
          simp only [] at h
          obtain ⟨pre1, hp1, hrel1⟩ := ih _ _ _ h
          refine ⟨pre1 ++ [vaChar2 p (vaChar1 (a :: acc2) c)], by simp [hp1], ?_⟩
          rw [List.reverse_cons]
          exact List.rel_append hrel1
            (List.Forall₂.cons (vaChar_rel (a :: acc2) p c) List.Forall₂.nil)

theorem forallTwo_get {r : Char → Char → Prop} :
    ∀ {l1 l2 : List Char}, List.Forall₂ r l1 l2 →
      ∀ (i : Nat) (c d : Char), l1[i]? = some c → l2[i]? = some d → r c d := by
  intro l1 l2 h
  induction h with
  | nil => intro i c d h1 _; simp at h1
  | cons hr _ ih =>
    intro i c d h1 h2
    cases i with
    | zero =>
      simp only [List.getElem?_cons_zero, Option.some.injEq] at h1 h2
      exact h1 ▸ h2 ▸ hr
    | succ n =>
      exact ih n c d (by simpa using h1) (by simpa using h2)

theorem vaChar2_space (p : Char) : vaChar2 p ' ' = ' ' := by
  have h1 : ' ' ∉ voicedS := by decide
  have h2 : ' ' ∉ devoicedS := by decide
  simp [vaChar2, h1, h2]

theorem voicing_none_of_last {s : List Char} (h : s.getLast? = some ' ') :
    voicing_assim s = none := by
  cases hs : s.reverse with
  | nil =>
    have h0 : s = [] := by simpa using congrArg List.reverse hs
    rw [h0] at h
    cases h
  | cons c t =>
    have hlast : s.getLast? = some c := by rw [← List.head?_reverse, hs]; rfl
    have hc : c = ' ' := by
      rw [h] at hlast
      exact (Option.some.inj hlast).symm
    subst hc
    rw [voicing_assim, hs, vaGo_cons_nil, vaChar1_nil,
      if_neg (by decide : ¬(voicedS.contains ' ' = true))]
    simp [vaNext]

theorem voicing_some_of_not_last {s : List Char} (h : s.getLast? ≠ some ' ') :
    ∃ out, voicing_assim s = some out := by
  cases hs : s.reverse with
  | nil =>
    have h0 : s = [] := by simpa using congrArg List.reverse hs
    subst h0
    exact ⟨[], rfl⟩
  | cons c t =>
    have hlast : s.getLast? = some c := by rw [← List.head?_reverse, hs]; rfl
    have hcsp : c ≠ ' ' := fun he => h (he ▸ hlast)
    rw [voicing_assim, hs, vaGo_cons_nil, vaChar1_nil]
    by_cases hvc : voicedS.contains c = true
    · rw [if_pos hvc]
      have hvn : vaNext [voiced2devoiced c] = some (voiced2devoiced c) := by
        rw [vaNext_cons, if_neg (v2d_ne_space hvc)]
      rw [hvn]
      simp only []
      exact vaGo_total t _ _ (by simp)
    · rw [if_neg hvc]
      have hvn : vaNext [c] = some c := by rw [vaNext_cons, if_neg hcsp]
      rw [hvn]
      simp only []
      exact vaGo_total t _ _ (by simp)

theorem vaGo_mid :
    ∀ cs1 cs2 acc pp out, vaGo acc pp (cs1 ++ cs2) = some out →
      ∃ acc2 pp2, vaGo acc2 pp2 cs2 = some out := by
  intro cs1
  induction cs1 with
  | nil => intro cs2 acc pp out h; exact ⟨acc, pp, by simpa using h⟩
  | cons c cs1 ih =>
    intro cs2 acc pp out h
    rw [List.cons_append] at h
    cases acc with
    | nil =>
      rw [vaGo_cons_nil] at h
      cases hv : vaNext [if voicedS.contains (vaChar1 [] c) = true
          then voiced2devoiced (vaChar1 [] c) else vaChar1 [] c] with
      | none => rw [hv] at h; cases h
      | some p =>
        rw [hv] at h
        simp only [] at h
        exact ih cs2 _ _ out h
    | cons a acc3 =>
      cases pp with
      | none => rw [vaGo_cons_none] at h; cases h
      | some p =>
        rw [vaGo_cons_cons] at h
        cases hv : vaNext (vaChar2 p (vaChar1 (a :: acc3) c) :: a :: acc3) with
        | none => rw [hv] at h; cases h
        | some q =>
          rw [hv] at h
          simp only [] at h
          exact ih cs2 _ _ out h

theorem get2_split :
    ∀ (s : List Char) (i : Nat) (c d : Char), s[i]? = some c → s[i+1]? = some d →
      ∃ u v, s = u ++ c :: d :: v ∧ u.length = i := by
  intro s
  induction s with
  | nil => intro i c d h1 _; simp at h1
  | cons x rest ih =>
    intro i c d h1 h2
    cases i with
    | zero =>
      simp only [List.getElem?_cons_zero, Option.some.injEq] at h1
      subst h1
      cases rest with
      | nil => simp at h2
      | cons y rest2 =>
        have h2b : y = d := by simpa using h2
        subst h2b
        exact ⟨[], rest2, rfl, rfl⟩
    | succ n =>
      obtain ⟨u, v, huv, hlen⟩ := ih n c d (by simpa using h1) (by simpa using h2)
      exact ⟨x :: u, v, by simp [huv], by simp [hlen]⟩

/-! Claim theorems for the voicing assimilator. -/

/-- Claim C3: when a non-empty input ends in a voiced character, the
assimilator returns, and the last character of the returned string is
the devoiced counterpart of that character. -/
theorem utterance_final_devoicing (s : List Char) (c : Char)
    (h1 : s.getLast? = some c) (h2 : voicedS.contains c = true) :
    ∃ out, voicing_assim s = some out ∧ out.getLast? = some (voiced2devoiced c) := by
  cases hs : s.reverse with
  | nil =>
    have h0 : s = [] := by simpa using congrArg List.reverse hs
    rw [h0] at h1
    cases h1
  | cons c0 t =>
    have hlast : s.getLast? = some c0 := by rw [← List.head?_reverse, hs]; rfl
    have hc : c0 = c := by
      rw [h1] at hlast
      exact (Option.some.inj hlast).symm
    subst hc
    have hstart : voicing_assim s = vaGo [] none (c0 :: t) := by rw [voicing_assim, hs]
    rw [vaGo_cons_nil, vaChar1_nil, if_pos h2] at hstart
    have hvn : vaNext [voiced2devoiced c0] = some (voiced2devoiced c0) := by
      rw [vaNext_cons, if_neg (v2d_ne_space h2)]
    rw [hvn] at hstart
    simp only [] at hstart
    obtain ⟨out, hout⟩ := vaGo_total t [voiced2devoiced c0] (voiced2devoiced c0) (by simp)
    obtain ⟨pre, hpre, _⟩ := vaGo_suffix t _ _ out hout
    refine ⟨out, hstart.trans hout, ?_⟩
    rw [hpre, List.getLast?_concat]

/-- Witness for C3 at the concrete input "b". -/
theorem utterance_final_devoicing_witness :
    ∃ out, voicing_assim "b".toList = some out ∧
      out.getLast? = some (voiced2devoiced 'b') :=
  utterance_final_devoicing "b".toList 'b' (by decide) (by decide)

/-- Claim C7: a string without voiced characters that does not end in a
space is returned unchanged by the voicing assimilator. -/
theorem no_voiced_unchanged (s : List Char)
    (h1 : ∀ c ∈ s, voicedS.contains c = false) (h2 : s.getLast? ≠ some ' ') :
    voicing_assim s = some s := by
  cases hs : s.reverse with
  | nil =>
    have h0 : s = [] := by simpa using congrArg List.reverse hs
    subst h0
    rfl
  | cons c t =>
    have hcin : c ∈ s := by
      have hm : c ∈ s.reverse := by rw [hs]; exact List.mem_cons_self _ _
      simpa using hm
    have hc : voicedS.contains c = false := h1 c hcin
    have hlast : s.getLast? = some c := by rw [← List.head?_reverse, hs]; rfl
    have hcsp : c ≠ ' ' := fun he => h2 (he ▸ hlast)
    have hstart : voicing_assim s = vaGo [] none (c :: t) := by rw [voicing_assim, hs]
    rw [vaGo_cons_nil, vaChar1_nil, if_neg (fun hh => Bool.false_ne_true (hc.symm.trans hh))] at hstart
    have hvn : vaNext [c] = some c := by rw [vaNext_cons, if_neg hcsp]
    rw [hvn] at hstart
    simp only [] at hstart
    rw [hstart]
    rw [vaGo_keep t [c] c (by simp)
      (fun x hx => h1 x (by
        have hxs : x ∈ s.reverse := by rw [hs]; exact List.mem_cons_of_mem _ hx
        simpa using hxs))
      (fun x hx => by
        have hxc : x = c := by simpa using hx
        exact hxc ▸ hc) hc]
    have hfin : t.reverse ++ [c] = s := by
      have h3 : (c :: t).reverse = s := by rw [← hs, List.reverse_reverse]
      simpa using h3
    rw [hfin]

/-- Witness for C7 at the concrete input "st". -/
theorem no_voiced_unchanged_witness :
    voicing_assim "st".toList = some "st".toList :=
  no_voiced_unchanged "st".toList (by decide) (by decide)

/-- Claim C4 (amended): the assimilator's output has the length of its
input and each output character is the input character unchanged, its
devoiced counterpart, its voiced counterpart, or — for a voiced
character first devoiced before a space and then re-voiced by a
following voicing trigger — the voiced counterpart of its devoiced
counterpart (this last case differs from the other three only for h,
which is emitted as ɣ). -/
theorem voicing_closure_amended (s out : List Char) (h : voicing_assim s = some out) :
    out.length = s.length ∧
    ∀ (i : Nat) (c d : Char), s[i]? = some c → out[i]? = some d →
      d = c ∨ d = voiced2devoiced c ∨ d = devoiced2voiced c ∨
        d = devoiced2voiced (voiced2devoiced c) := by
  obtain ⟨pre, hpre, hrel⟩ := vaGo_rel s.reverse [] none out h
  rw [List.append_nil] at hpre
  rw [List.reverse_reverse] at hrel
  subst hpre
  refine ⟨(List.Forall₂.length_eq hrel).symm, ?_⟩
  intro i c d h1 h2
  exact forallTwo_get hrel i c d h1 h2

/-- Witness for the amended C4 at the concrete input "h za". -/
theorem voicing_closure_amended_witness :
    "ɣ za".toList.length = "h za".toList.length ∧
    ∀ (i : Nat) (c d : Char), "h za".toList[i]? = some c → "ɣ za".toList[i]? = some d →
      d = c ∨ d = voiced2devoiced c ∨ d = devoiced2voiced c ∨
        d = devoiced2voiced (voiced2devoiced c) :=
  voicing_closure_amended "h za".toList "ɣ za".toList (by decide)

set_option maxRecDepth 100000 in
/-- Claim C5 (amended): every stage maps the empty string to the empty
string; every stage except the voicing assimilator is total, and the
voicing assimilator returns exactly on the strings that do not end in a
space (it raises on those that do). -/
theorem stage_total_amended :
    normalize [] = [] ∧ init_scp [] = [] ∧ foreign [] = [] ∧ collapse_expand [] = [] ∧
    «ě» [] = [] ∧ «i_í» [] = [] ∧ voicing_assim [] = some [] ∧ unify [] = [] ∧
    hiatus [] = [] ∧ heuristic [] = [] ∧ postprocess [] = [] ∧
    ∀ s : List Char, (voicing_assim s).isSome = !(s.getLast? == some ' ') := by
  refine ⟨by decide, by decide, by decide, by decide, by decide, by decide, rfl,
    by decide, by decide, by decide, by decide, ?_⟩
  intro s
  cases hb : s.getLast? == some ' '
  · obtain ⟨out, hout⟩ := voicing_some_of_not_last (s := s)
      (fun he => by rw [he] at hb; simp at hb)
    rw [hout]
    rfl
  · rw [voicing_none_of_last (s := s) (eq_of_beq hb)]
    rfl

/-- Claim C2 (amended): when a voiced character immediately precedes a
space, the emitted character at its position is its devoiced
counterpart, unless the already-assimilated phone directly after that
space is a voicing trigger, in which case it is re-voiced to the voiced
counterpart of the devoiced counterpart. -/
theorem word_final_devoicing_amended (s out : List Char) (i : Nat) (c : Char)
    (h : voicing_assim s = some out) (hc : s[i]? = some c)
    (hv : voicedS.contains c = true) (hsp : s[i+1]? = some ' ') :
    ∃ p, out[i+2]? = some p ∧
      out[i]? = some (if triggerVoicingS.contains p = true
        then devoiced2voiced (voiced2devoiced c) else voiced2devoiced c) := by
  obtain ⟨u, v, huv, hulen⟩ := get2_split s i c ' ' hc hsp
  have hrev : s.reverse = v.reverse ++ (' ' :: c :: u.reverse) := by
    rw [huv]; simp
  rw [voicing_assim, hrev] at h
  obtain ⟨acc3, pp3, hgo3⟩ := vaGo_mid v.reverse _ [] none out h
  cases acc3 with
  | nil =>
    rw [vaGo_cons_nil, vaChar1_nil,
      if_neg (by decide : ¬(voicedS.contains ' ' = true))] at hgo3
    simp [vaNext] at hgo3
  | cons a acc4 =>
    cases pp3 with
    | none => rw [vaGo_cons_none] at hgo3; cases hgo3
    | some p3 =>
      rw [vaGo_cons_cons, vaChar1_not_voiced _ (by decide), vaChar2_space] at hgo3
      have hvn : vaNext (' ' :: a :: acc4) = some a := by
        rw [vaNext_cons, if_pos rfl]; rfl
      rw [hvn] at hgo3
      simp only [] at hgo3
      rw [vaGo_cons_cons] at hgo3
      have hc1b : vaChar1 (' ' :: a :: acc4) c = voiced2devoiced c := by
        rw [vaChar1, if_pos ⟨rfl, hv⟩]
      rw [hc1b] at hgo3
      have hd : devoicedS.contains (voiced2devoiced c) = true := v2d_devoiced hv
      have hnv : voicedS.contains (voiced2devoiced c) = false := v2d_not_voiced hv
      by_cases ha : triggerVoicingS.contains a = true
      · have he : vaChar2 a (voiced2devoiced c) = devoiced2voiced (voiced2devoiced c) := by
          rw [vaChar2, if_neg (fun hh => Bool.false_ne_true (hnv.symm.trans hh.2)),
            if_pos ⟨ha, hd⟩]
        rw [he] at hgo3
        have hvn2 : vaNext (devoiced2voiced (voiced2devoiced c) :: ' ' :: a :: acc4) =
            some (devoiced2voiced (voiced2devoiced c)) := by
          rw [vaNext_cons, if_neg (d2v_v2d_ne_space hv)]
        rw [hvn2] at hgo3
        simp only [] at hgo3
        obtain ⟨pre, hpre, hplen⟩ := vaGo_suffix _ _ _ _ hgo3
        have hlp : pre.length = i := by
          rw [hplen, List.length_reverse, hulen]
        refine ⟨a, ?_, ?_⟩
        · rw [hpre, List.getElem?_append_right (by omega), hlp]
          have h22 : i + 2 - i = 2 := by omega
          rw [h22]
          simp
        · rw [hpre, List.getElem?_append_right (by omega : pre.length ≤ i), hlp,
            Nat.sub_self, if_pos ha]
          rfl
      · have he : vaChar2 a (voiced2devoiced c) = voiced2devoiced c := by
          rw [vaChar2, if_neg (fun hh => Bool.false_ne_true (hnv.symm.trans hh.2)),
            if_neg (fun hh => ha hh.1)]
        rw [he] at hgo3
        have hvn2 : vaNext (voiced2devoiced c :: ' ' :: a :: acc4) =
            some (voiced2devoiced c) := by
          rw [vaNext_cons, if_neg (v2d_ne_space hv)]
        rw [hvn2] at hgo3
        simp only [] at hgo3
        obtain ⟨pre, hpre, hplen⟩ := vaGo_suffix _ _ _ _ hgo3
        have hlp : pre.length = i := by
          rw [hplen, List.length_reverse, hulen]
        refine ⟨a, ?_, ?_⟩
        · rw [hpre, List.getElem?_append_right (by omega), hlp]
          have h22 : i + 2 - i = 2 := by omega
          rw [h22]
          simp
        · rw [hpre, List.getElem?_append_right (by omega : pre.length ≤ i), hlp,
            Nat.sub_self, if_neg ha]
          rfl

/-- Witness for the amended C2 at the concrete input "b ta" (followed by
the non-trigger t, so the b is devoiced to p). -/
theorem word_final_devoicing_amended_witness :
    ∃ p, "p ta".toList[2]? = some p ∧
      "p ta".toList[0]? = some (if triggerVoicingS.contains p = true
        then devoiced2voiced (voiced2devoiced 'b') else voiced2devoiced 'b') :=
  word_final_devoicing_amended "b ta".toList "p ta".toList 0 'b'
    (by decide) (by decide) (by decide) (by decide)

/-! Machinery for normalization idempotence.  The two tokenizing
rewrites of `normalize` are first re-expressed as window-by-one
inserters (`insSp`), whose composition is the single inserter
`insBoth` that puts a space at every word/non-word transition. -/

/-- Insert a space after every position where `p` holds of a character
and `q` of its successor, advancing one character at a time (equivalent
to the skip-two rewriter because a matched successor can never start a
match itself for the instantiations used). -/
def insSp (p q : Char → Bool) : List Char → List Char
  | c :: d :: rest =>
    if p c && q d then c :: ' ' :: insSp p q (d :: rest)
    else c :: insSp p q (d :: rest)
  | s => s

/-- Insert a space at every transition between a word and a non-word
character (in either order). -/
def insBoth : List Char → List Char
  | c :: d :: rest =>
    if wch c != wch d then c :: ' ' :: insBoth (d :: rest)
    else c :: insBoth (d :: rest)
  | s => s

theorem sub2_cons2 (p q : Char → Bool) (r : Char → Char → List Char)
    (c d : Char) (rest : List Char) :
    sub2 p q r (c :: d :: rest) =
      if p c && q d then r c d ++ sub2 p q r rest else c :: sub2 p q r (d :: rest) := rfl

theorem insSp_cons2 (p q : Char → Bool) (c d : Char) (rest : List Char) :
    insSp p q (c :: d :: rest) =
      if p c && q d then c :: ' ' :: insSp p q (d :: rest)
      else c :: insSp p q (d :: rest) := rfl

theorem insBoth_cons2 (c d : Char) (rest : List Char) :
    insBoth (c :: d :: rest) =
      if wch c != wch d then c :: ' ' :: insBoth (d :: rest)
      else c :: insBoth (d :: rest) := rfl

/-- Induction along the recursion pattern of the two-character
rewriters. -/
theorem twoStepInd (motive : List Char → Prop) (h0 : motive [])
    (h1 : ∀ c, motive [c])
    (h2 : ∀ c d rest, motive rest → motive (d :: rest) → motive (c :: d :: rest)) :
    ∀ l, motive l
  | [] => h0
  | [c] => h1 c
  | c :: d :: rest =>
    h2 c d rest (twoStepInd motive h0 h1 h2 rest) (twoStepInd motive h0 h1 h2 (d :: rest))

theorem insSp_head (p q : Char → Bool) (c : Char) (l : List Char) :
    ∃ t, insSp p q (c :: l) = c :: t := by
  cases l with
  | nil => exact ⟨[], rfl⟩
  | cons d rest =>
    rw [insSp_cons2]
    by_cases h : (p c && q d) = true
    · rw [if_pos h]; exact ⟨_, rfl⟩
    · rw [if_neg h]; exact ⟨_, rfl⟩

theorem insBoth_head (c : Char) (l : List Char) :
    ∃ t, insBoth (c :: l) = c :: t := by
  cases l with
  | nil => exact ⟨[], rfl⟩
  | cons d rest =>
    rw [insBoth_cons2]
    by_cases h : (wch c != wch d) = true
    · rw [if_pos h]; exact ⟨_, rfl⟩
    · rw [if_neg h]; exact ⟨_, rfl⟩

theorem insSp_cons_of_q (p q : Char → Bool) (hpq : ∀ x, q x = true → p x = false)
    (d : Char) (hd : q d = true) (l : List Char) :
    insSp p q (d :: l) = d :: insSp p q l := by
  cases l with
  | nil => rfl
  | cons e rest =>
    rw [insSp_cons2, if_neg (by rw [hpq d hd]; simp)]

theorem sub2_eq_insSp (p q : Char → Bool) (hpq : ∀ x, q x = true → p x = false) :
    ∀ l, sub2 p q spaceRepl l = insSp p q l := by
  intro l
  induction l using twoStepInd with
  | h0 => rfl
  | h1 c => rfl
  | h2 c d rest ih1 ih2 =>
    rw [sub2_cons2, insSp_cons2]
    by_cases h : (p c && q d) = true
    · rw [if_pos h, if_pos h]
      have hd : q d = true := (Bool.and_eq_true _ _ |>.mp h).2
      rw [insSp_cons_of_q p q hpq d hd rest, ih1]
      rfl
    · rw [if_neg h, if_neg h, ih2]

theorem insSp_insSp : ∀ l,
    insSp (fun c => !wch c) (fun d => wch d)
      (insSp (fun c => wch c) (fun d => !wch d) l) = insBoth l := by
  intro l
  induction l using twoStepInd with
  | h0 => rfl
  | h1 c => rfl
  | h2 c d rest ih1 ih2 =>
    obtain ⟨t, ht⟩ := insSp_head (fun c => wch c) (fun d => !wch d) d rest
    by_cases hc : wch c = true <;> by_cases hd : wch d = true
    · -- both word characters: no insertion anywhere
      rw [insSp_cons2, if_neg (by simp [hc, hd]), insBoth_cons2, if_neg (by simp [hc, hd])]
      rw [ht, insSp_cons2, if_neg (by simp [hc, hd]), ← ht, ih2]
    · -- word then non-word: first pass inserts, second pass does not
      rw [insSp_cons2, if_pos (by simp [hc, hd]), insBoth_cons2, if_pos (by simp [hc, hd])]
      rw [insSp_cons2, if_neg (by simp [hc])]
      rw [ht, insSp_cons2, if_neg (by simp [hd]), ← ht, ih2]
    · -- non-word then word: second pass inserts
      rw [insSp_cons2, if_neg (by simp [hc]), insBoth_cons2, if_pos (by simp [hc, hd])]
      rw [ht, insSp_cons2, if_pos (by simp [hc, hd]), ← ht, ih2]
    · -- both non-word: no insertion
      rw [insSp_cons2, if_neg (by simp [hc]), insBoth_cons2, if_neg (by simp [hc, hd])]
      rw [ht, insSp_cons2, if_neg (by simp [hd]), ← ht, ih2]

theorem normalize_eq (s : List Char) :
    normalize s = strip (collapseWs (insBoth (List.map cf s))) := by
  rw [normalize, sub2_eq_insSp _ _ (fun x h => by simpa using h),
    sub2_eq_insSp _ _ (fun x h => by simpa using h), insSp_insSp]

/-- A binary predicate holding of every adjacent pair of a list. -/
def AdjOK (P : Char → Char → Prop) : List Char → Prop
  | a :: b :: rest => P a b ∧ AdjOK P (b :: rest)
  | _ => True

theorem adjOK_nil (P : Char → Char → Prop) : AdjOK P [] := trivial

theorem adjOK_single (P : Char → Char → Prop) (a : Char) : AdjOK P [a] := trivial

theorem adjOK_cons2 (P : Char → Char → Prop) (a b : Char) (rest : List Char) :
    AdjOK P (a :: b :: rest) ↔ P a b ∧ AdjOK P (b :: rest) := Iff.rfl

theorem adjOK_tail (P : Char → Char → Prop) :
    ∀ (a : Char) (l : List Char), AdjOK P (a :: l) → AdjOK P l
  | _, [], _ => trivial
  | _, _ :: _, h => h.2

theorem adjOK_cons (P : Char → Char → Prop) (a : Char) (l : List Char)
    (hhead : ∀ b, l.head? = some b → P a b) (hl : AdjOK P l) : AdjOK P (a :: l) := by
  cases l with
  | nil => trivial
  | cons b rest => exact ⟨hhead b rfl, hl⟩

theorem adjOK_head (P : Char → Char → Prop) {a : Char} {l : List Char}
    (h : AdjOK P (a :: l)) : ∀ b, l.head? = some b → P a b := by
  cases l with
  | nil => intro b hb; cases hb
  | cons b rest =>
    intro b2 hb
    cases Option.some.inj hb
    exact h.1

theorem adjOK_mono {P Q : Char → Char → Prop} (hpq : ∀ a b, P a b → Q a b) :
    ∀ l, AdjOK P l → AdjOK Q l := by
  intro l
  induction l using twoStepInd with
  | h0 => intro _; trivial
  | h1 c => intro _; trivial
  | h2 c d rest _ ih2 => intro h; exact ⟨hpq c d h.1, ih2 h.2⟩

theorem adjOK_dropWhile (P : Char → Char → Prop) (f : Char → Bool) :
    ∀ l, AdjOK P l → AdjOK P (l.dropWhile f) := by
  intro l
  induction l with
  | nil => intro _; trivial
  | cons x rest ih =>
    intro h
    rw [List.dropWhile_cons]
    by_cases hf : f x = true
    · rw [if_pos hf]; exact ih (adjOK_tail P x rest h)
    · rw [if_neg hf]; exact h

theorem adjOK_append_one (P : Char → Char → Prop) :
    ∀ (l : List Char) (x : Char), AdjOK P l →
      (∀ a, l.getLast? = some a → P a x) → AdjOK P (l ++ [x]) := by
  intro l
  induction l with
  | nil => intro x _ _; exact adjOK_single P x
  | cons c rest ih =>
    intro x h hlast
    rw [List.cons_append]
    refine adjOK_cons P c (rest ++ [x]) ?_ ?_
    · intro b hb
      cases rest with
      | nil => cases Option.some.inj hb; exact hlast c rfl
      | cons d rest2 =>
        rw [List.cons_append] at hb
        cases Option.some.inj hb
        exact h.1
    · refine ih x (adjOK_tail P c rest h) ?_
      intro a ha
      refine hlast a ?_
      cases rest with
      | nil => cases ha
      | cons d rest2 => rw [List.getLast?_cons_cons]; exact ha

theorem adjOK_reverse {P Q : Char → Char → Prop} (hsym : ∀ a b, P a b → Q b a) :
    ∀ l, AdjOK P l → AdjOK Q l.reverse := by
  intro l
  induction l with
  | nil => intro _; trivial
  | cons c rest ih =>
    intro h
    rw [List.reverse_cons]
    refine adjOK_append_one Q rest.reverse c (ih (adjOK_tail P c rest h)) ?_
    intro a ha
    rw [List.getLast?_reverse] at ha
    exact hsym c a (adjOK_head P h a ha)

theorem mem_dropWhile (f : Char → Bool) :
    ∀ (l : List Char) (c : Char), c ∈ l.dropWhile f → c ∈ l := by
  intro l
  induction l with
  | nil => intro c h; cases h
  | cons x rest ih =>
    intro c h
    rw [List.dropWhile_cons] at h
    by_cases hf : f x = true
    · rw [if_pos hf] at h; exact List.mem_cons_of_mem _ (ih c h)
    · rw [if_neg hf] at h; exact h

theorem head_dropWhile_not (f : Char → Bool) :
    ∀ (l : List Char) (b : Char), (l.dropWhile f).head? = some b → f b = false := by
  intro l
  induction l with
  | nil => intro b h; cases h
  | cons x rest ih =>
    intro b h
    rw [List.dropWhile_cons] at h
    by_cases hf : f x = true
    · rw [if_pos hf] at h; exact ih b h
    · rw [if_neg hf] at h
      cases Option.some.inj h
      exact Bool.eq_false_iff.mpr hf

theorem getLast_dropWhile (f : Char → Bool) :
    ∀ (l : List Char), l.dropWhile f = [] ∨ (l.dropWhile f).getLast? = l.getLast? := by
  intro l
  induction l with
  | nil => exact Or.inl rfl
  | cons x rest ih =>
    rw [List.dropWhile_cons]
    by_cases hf : f x = true
    · rw [if_pos hf]
      rcases ih with h | h
      · exact Or.inl h
      · cases rest with
        | nil => exact Or.inl rfl
        | cons y rest2 => exact Or.inr (by rw [h, List.getLast?_cons_cons])
    · rw [if_neg hf]
      exact Or.inr rfl

/-! Facts about `collapseWs`, `collapseAfterWs` and `strip`. -/

theorem collapseWs_cons (x : Char) (l : List Char) :
    collapseWs (x :: l) = if isWs x then ' ' :: collapseAfterWs l else x :: collapseWs l := rfl

theorem collapseAfterWs_cons (x : Char) (l : List Char) :
    collapseAfterWs (x :: l) = if isWs x then collapseAfterWs l else x :: collapseWs l := rfl

theorem collapse_mem :
    ∀ l, (∀ c ∈ collapseWs l, c ∈ l ∨ c = ' ') ∧
      (∀ c ∈ collapseAfterWs l, c ∈ l ∨ c = ' ') := by
  intro l
  induction l with
  | nil => exact ⟨fun c h => absurd h (by simp [collapseWs]), fun c h => absurd h (by simp [collapseAfterWs])⟩
  | cons x rest ih =>
    constructor
    · intro c h
      rw [collapseWs_cons] at h
      by_cases hx : isWs x = true
      · rw [if_pos hx] at h
        rcases List.mem_cons.mp h with h | h
        · exact Or.inr h
        · rcases ih.2 c h with h | h
          · exact Or.inl (List.mem_cons_of_mem _ h)
          · exact Or.inr h
      · rw [if_neg hx] at h
        rcases List.mem_cons.mp h with h | h
        · exact Or.inl (h ▸ List.mem_cons_self _ _)
        · rcases ih.1 c h with h | h
          · exact Or.inl (List.mem_cons_of_mem _ h)
          · exact Or.inr h
    · intro c h
      rw [collapseAfterWs_cons] at h
      by_cases hx : isWs x = true
      · rw [if_pos hx] at h
        rcases ih.2 c h with h | h
        · exact Or.inl (List.mem_cons_of_mem _ h)
        · exact Or.inr h
      · rw [if_neg hx] at h
        rcases List.mem_cons.mp h with h | h
        · exact Or.inl (h ▸ List.mem_cons_self _ _)
        · rcases ih.1 c h with h | h
          · exact Or.inl (List.mem_cons_of_mem _ h)
          · exact Or.inr h

theorem collapse_ws_space :
    ∀ l, (∀ c ∈ collapseWs l, isWs c = true → c = ' ') ∧
      (∀ c ∈ collapseAfterWs l, isWs c = true → c = ' ') := by
  intro l
  induction l with
  | nil => exact ⟨fun c h => absurd h (by simp [collapseWs]), fun c h => absurd h (by simp [collapseAfterWs])⟩
  | cons x rest ih =>
    constructor
    · intro c h hc
      rw [collapseWs_cons] at h
      by_cases hx : isWs x = true
      · rw [if_pos hx] at h
        rcases List.mem_cons.mp h with h | h
        · exact h
        · exact ih.2 c h hc
      · rw [if_neg hx] at h
        rcases List.mem_cons.mp h with h | h
        · exact absurd (h ▸ hc) (by simp [hx])
        · exact ih.1 c h hc
    · intro c h hc
      rw [collapseAfterWs_cons] at h
      by_cases hx : isWs x = true
      · rw [if_pos hx] at h
        exact ih.2 c h hc
      · rw [if_neg hx] at h
        rcases List.mem_cons.mp h with h | h
        · exact absurd (h ▸ hc) (by simp [hx])
        · exact ih.1 c h hc

theorem collapseWs_head (c : Char) (l : List Char) :
    (collapseWs (c :: l)).head? = some (if isWs c then ' ' else c) := by
  rw [collapseWs_cons]
  by_cases hc : isWs c = true
  · rw [if_pos hc, if_pos hc]; rfl
  · rw [if_neg hc, if_neg hc]; rfl

theorem collapseAfterWs_head_not_ws :
    ∀ l b, (collapseAfterWs l).head? = some b → isWs b = false := by
  intro l
  induction l with
  | nil => intro b h; cases h
  | cons x rest ih =>
    intro b h
    rw [collapseAfterWs_cons] at h
    by_cases hx : isWs x = true
    · rw [if_pos hx] at h; exact ih b h
    · rw [if_neg hx] at h
      cases Option.some.inj h
      exact Bool.eq_false_iff.mpr hx

/-- No two adjacent whitespace characters survive collapsing. -/
def noWW (a b : Char) : Prop := ¬(isWs a = true ∧ isWs b = true)

/-- Adjacent characters that are both non-whitespace agree on wordness.
This is the key invariant produced by the boundary-inserting passes. -/
def wQ (a b : Char) : Prop := isWs a = false → isWs b = false → wch a = wch b

theorem collapse_noWW :
    ∀ l, AdjOK noWW (collapseWs l) ∧ AdjOK noWW (collapseAfterWs l) := by
  intro l
  induction l with
  | nil => exact ⟨trivial, trivial⟩
  | cons x rest ih =>
    constructor
    · rw [collapseWs_cons]
      by_cases hx : isWs x = true
      · rw [if_pos hx]
        refine adjOK_cons noWW ' ' _ ?_ ih.2
        intro b hb
        exact fun hand => by rw [collapseAfterWs_head_not_ws rest b hb] at hand; cases hand.2
      · rw [if_neg hx]
        refine adjOK_cons noWW x _ ?_ ih.1
        intro b _
        exact fun hand => by rw [hand.1] at hx; exact hx rfl
    · rw [collapseAfterWs_cons]
      by_cases hx : isWs x = true
      · rw [if_pos hx]; exact ih.2
      · rw [if_neg hx]
        refine adjOK_cons noWW x _ ?_ ih.1
        intro b _
        exact fun hand => by rw [hand.1] at hx; exact hx rfl

theorem collapse_adjQ :
    ∀ l, AdjOK wQ l → AdjOK wQ (collapseWs l) ∧ AdjOK wQ (collapseAfterWs l) := by
  intro l
  induction l with
  | nil => intro _; exact ⟨trivial, trivial⟩
  | cons x rest ih =>
    intro h
    obtain ⟨ih1, ih2⟩ := ih (adjOK_tail wQ x rest h)
    constructor
    · rw [collapseWs_cons]
      by_cases hx : isWs x = true
      · rw [if_pos hx]
        refine adjOK_cons wQ ' ' _ ?_ ih2
        intro b _
        intro hsp _
        exact absurd hsp (by simp [isWs])
      · rw [if_neg hx]
        refine adjOK_cons wQ x _ ?_ ih1
        intro b hb
        cases rest with
        | nil => cases hb
        | cons y rest2 =>
          rw [collapseWs_head] at hb
          cases Option.some.inj hb
          by_cases hy : isWs y = true
          · rw [if_pos hy]
            intro _ hsp
            exact absurd hsp (by simp [isWs])
          · rw [if_neg hy]
            exact h.1
    · rw [collapseAfterWs_cons]
      by_cases hx : isWs x = true
      · rw [if_pos hx]; exact ih2
      · rw [if_neg hx]
        refine adjOK_cons wQ x _ ?_ ih1
        intro b hb
        cases rest with
        | nil => cases hb
        | cons y rest2 =>
          rw [collapseWs_head] at hb
          cases Option.some.inj hb
          by_cases hy : isWs y = true
          · rw [if_pos hy]
            intro _ hsp
            exact absurd hsp (by simp [isWs])
          · rw [if_neg hy]
            exact h.1

theorem mem_strip : ∀ l c, c ∈ strip l → c ∈ l := by
  intro l c h
  rw [strip] at h
  rw [List.mem_reverse] at h
  have h2 := mem_dropWhile isWs _ c h
  rw [List.mem_reverse] at h2
  exact mem_dropWhile isWs _ c h2

theorem strip_head_not_ws : ∀ l b, (strip l).head? = some b → isWs b = false := by
  intro l b h
  rw [strip, List.head?_reverse] at h
  rcases getLast_dropWhile isWs ((l.dropWhile isWs).reverse) with he | he
  · rw [he] at h; cases h
  · rw [he, List.getLast?_reverse] at h
    exact head_dropWhile_not isWs l b h

theorem strip_last_not_ws : ∀ l b, (strip l).getLast? = some b → isWs b = false := by
  intro l b h
  rw [strip, List.getLast?_reverse] at h
  exact head_dropWhile_not isWs _ b h

theorem adjOK_strip {P : Char → Char → Prop} (hsym : ∀ a b, P a b → P b a)
    (l : List Char) (h : AdjOK P l) : AdjOK P (strip l) := by
  rw [strip]
  exact adjOK_reverse hsym _ (adjOK_dropWhile P isWs _ (adjOK_reverse hsym _ (adjOK_dropWhile P isWs l h)))

theorem mem_insBoth : ∀ (l : List Char) (c : Char), c ∈ insBoth l → c ∈ l ∨ c = ' ' := by
  intro l
  induction l using twoStepInd with
  | h0 => intro c h; cases h
  | h1 c0 => intro c h; exact Or.inl h
  | h2 c0 d rest ih1 ih2 =>
    intro c h
    rw [insBoth_cons2] at h
    by_cases hw : (wch c0 != wch d) = true
    · rw [if_pos hw] at h
      rcases List.mem_cons.mp h with h | h
      · exact Or.inl (h ▸ List.mem_cons_self _ _)
      · rcases List.mem_cons.mp h with h | h
        · exact Or.inr h
        · rcases ih2 c h with h | h
          · exact Or.inl (List.mem_cons_of_mem _ h)
          · exact Or.inr h
    · rw [if_neg hw] at h
      rcases List.mem_cons.mp h with h | h
      · exact Or.inl (h ▸ List.mem_cons_self _ _)
      · rcases ih2 c h with h | h
        · exact Or.inl (List.mem_cons_of_mem _ h)
        · exact Or.inr h

/-- Relation produced by the boundary inserter: adjacent characters
either agree on wordness or one of them is an inserted space. -/
def wQQ (a b : Char) : Prop := wch a = wch b ∨ a = ' ' ∨ b = ' '

theorem insBoth_adjQQ : ∀ l, AdjOK wQQ (insBoth l) := by
  intro l
  induction l using twoStepInd with
  | h0 => trivial
  | h1 c => trivial
  | h2 c d rest ih1 ih2 =>
    obtain ⟨t, ht⟩ := insBoth_head d rest
    rw [insBoth_cons2]
    by_cases hw : (wch c != wch d) = true
    · rw [if_pos hw]
      rw [ht]
      rw [ht] at ih2
      exact ⟨Or.inr (Or.inr rfl), Or.inr (Or.inl rfl), ih2⟩
    · rw [if_neg hw]
      rw [ht]
      rw [ht] at ih2
      have hww : wch c = wch d := by
        by_contra hne
        exact hw (by simp [hne])
      exact ⟨Or.inl hww, ih2⟩

theorem wQQ_wQ : ∀ a b, wQQ a b → wQ a b := by
  intro a b h ha hb
  rcases h with h | h | h
  · exact h
  · rw [h] at ha; exact absurd ha (by simp [isWs])
  · rw [h] at hb; exact absurd hb (by simp [isWs])

theorem noWW_symm : ∀ a b : Char, noWW a b → noWW b a :=
  fun _ _ h hand => h ⟨hand.2, hand.1⟩

theorem wQ_symm : ∀ a b : Char, wQ a b → wQ b a :=
  fun _ _ h hb ha => (h ha hb).symm

/-! Case folding is idempotent on the modelled alphabet. -/

theorem cf_values_fixed : ∀ p ∈ cfPairs, cf p.2 = p.2 := by decide

theorem lookupCf_cases :
    ∀ (ps : List (Char × Char)) (c : Char), lookupCf ps c = c ∨ (c, lookupCf ps c) ∈ ps := by
  intro ps
  induction ps with
  | nil => intro c; exact Or.inl rfl
  | cons p rest ih =>
    intro c
    obtain ⟨k, v⟩ := p
    rw [lookupCf]
    by_cases hc : c = k
    · rw [if_pos hc]
      exact Or.inr (by rw [hc]; exact List.mem_cons_self _ _)
    · rw [if_neg hc]
      rcases ih c with h | h
      · exact Or.inl h
      · exact Or.inr (List.mem_cons_of_mem _ h)

theorem cf_idem (c : Char) : cf (cf c) = cf c := by
  rcases lookupCf_cases cfPairs c with h | h
  · have hc : cf c = c := h
    rw [hc]
    exact hc
  · exact cf_values_fixed (c, cf c) h

theorem map_cf_fixed : ∀ (l : List Char), (∀ c ∈ l, cf c = c) → List.map cf l = l := by
  intro l
  induction l with
  | nil => intro _; rfl
  | cons x rest ih =>
    intro h
    rw [List.map_cons, h x (List.mem_cons_self _ _),
      ih (fun c hc => h c (List.mem_cons_of_mem _ hc))]

/-- The shape of a normalized string: case-folded characters, only
plain spaces as whitespace, no two adjacent whitespace characters,
adjacent non-space characters of equal wordness, and no whitespace at
either end. -/
structure IsNorm (N : List Char) : Prop where
  cfFix : ∀ c ∈ N, cf c = c
  wsSp : ∀ c ∈ N, isWs c = true → c = ' '
  noww : AdjOK noWW N
  adjq : AdjOK wQ N
  headOk : ∀ b, N.head? = some b → isWs b = false
  lastOk : ∀ b, N.getLast? = some b → isWs b = false

theorem isNorm_normalize (s : List Char) : IsNorm (normalize s) := by
  rw [normalize_eq]
  refine ⟨?_, ?_, ?_, ?_, ?_, ?_⟩
  · intro c hc
    have h1 := mem_strip _ c hc
    rcases (collapse_mem _).1 c h1 with h2 | h2
    · rcases mem_insBoth _ c h2 with h3 | h3
      · obtain ⟨x, _, hx⟩ := List.mem_map.mp h3
        rw [← hx]
        exact cf_idem x
      · rw [h3]; decide
    · rw [h2]; decide
  · intro c hc
    exact (collapse_ws_space _).1 c (mem_strip _ c hc)
  · exact adjOK_strip noWW_symm _ (collapse_noWW _).1
  · refine adjOK_strip wQ_symm _ ?_
    exact (collapse_adjQ _ (adjOK_mono wQQ_wQ _ (insBoth_adjQQ _))).1
  · exact strip_head_not_ws _
  · exact strip_last_not_ws _

theorem collapseAfter_eq_collapse (l : List Char)
    (h : ∀ b, l.head? = some b → isWs b = false) : collapseAfterWs l = collapseWs l := by
  cases l with
  | nil => rfl
  | cons b t =>
    have hb := h b rfl
    rw [collapseAfterWs_cons, collapseWs_cons, if_neg (by simp [hb]), if_neg (by simp [hb])]

theorem collapse_insBoth_fixed :
    ∀ (n : Nat) (N : List Char), N.length ≤ n →
      (∀ c ∈ N, isWs c = true → c = ' ') →
      AdjOK noWW N → AdjOK wQ N →
      (∀ b, N.head? = some b → isWs b = false) →
      (∀ b, N.getLast? = some b → isWs b = false) →
      collapseWs (insBoth N) = N := by
  intro n
  induction n with
  | zero =>
    intro N hlen _ _ _ _ _
    have h0 : N = [] := List.length_eq_zero.mp (Nat.le_zero.mp hlen)
    subst h0
    rfl
  | succ n ih =>
    intro N hlen hws hnoww hq hhead hlast
    cases N with
    | nil => rfl
    | cons c N1 =>
      have hc : isWs c = false := hhead c rfl
      cases N1 with
      | nil =>
        have h1 : insBoth [c] = [c] := rfl
        rw [h1, collapseWs_cons, if_neg (by simp [hc])]
        rfl
      | cons d N2 =>
        by_cases hd : isWs d = true
        · have hdsp : d = ' ' := hws d (List.mem_cons_of_mem _ (List.mem_cons_self _ _)) hd
          subst hdsp
          cases N2 with
          | nil =>
            exact absurd (hlast ' ' (by rw [List.getLast?_cons_cons]; rfl))
              (by simp [isWs])
          | cons e N3 =>
            have he : isWs e = false := by
              by_cases heb : isWs e = true
              · exact absurd ⟨by decide, heb⟩ ((adjOK_tail noWW c _ hnoww).1)
              · exact Bool.eq_false_iff.mpr heb
            obtain ⟨t, ht⟩ := insBoth_head e N3
            have hihargs : collapseWs (insBoth (e :: N3)) = e :: N3 := by
              refine ih (e :: N3) ?_ ?_ ?_ ?_ ?_ ?_
              · simp at hlen ⊢; omega
              · intro x hx hxw
                exact hws x (List.mem_cons_of_mem _ (List.mem_cons_of_mem _ hx)) hxw
              · exact adjOK_tail noWW ' ' _ (adjOK_tail noWW c _ hnoww)
              · exact adjOK_tail wQ ' ' _ (adjOK_tail wQ c _ hq)
              · intro b hb; cases Option.some.inj hb; exact he
              · intro b hb
                refine hlast b ?_
                rw [List.getLast?_cons_cons, List.getLast?_cons_cons]
                exact hb
            have hafter : collapseAfterWs (insBoth (e :: N3)) = e :: N3 := by
              rw [collapseAfter_eq_collapse _ (fun b hb => by
                rw [ht] at hb; cases Option.some.inj hb; exact he), hihargs]
            have hwsp : wch ' ' = false := by decide
            cases hwc : wch c <;> cases hwe : wch e
            · rw [insBoth_cons2, if_neg (by rw [hwc, hwsp]; decide),
                insBoth_cons2, if_neg (by rw [hwe, hwsp]; decide)]
              rw [collapseWs_cons, if_neg (by simp [hc]),
                collapseWs_cons, if_pos (by decide),
                hafter]
            · rw [insBoth_cons2, if_neg (by rw [hwc, hwsp]; decide),
                insBoth_cons2, if_pos (by rw [hwe, hwsp]; decide)]
              rw [collapseWs_cons, if_neg (by simp [hc]),
                collapseWs_cons, if_pos (by decide),
                collapseAfterWs_cons, if_pos (by decide),
                hafter]
            · rw [insBoth_cons2, if_pos (by rw [hwc, hwsp]; decide),
                insBoth_cons2, if_neg (by rw [hwe, hwsp]; decide)]
              rw [collapseWs_cons, if_neg (by simp [hc]),
                collapseWs_cons, if_pos (by decide),
                collapseAfterWs_cons, if_pos (by decide),
                hafter]
            · rw [insBoth_cons2, if_pos (by rw [hwc, hwsp]; decide),
                insBoth_cons2, if_pos (by rw [hwe, hwsp]; decide)]
              rw [collapseWs_cons, if_neg (by simp [hc]),
                collapseWs_cons, if_pos (by decide),
                collapseAfterWs_cons, if_pos (by decide),
                collapseAfterWs_cons, if_pos (by decide),
                hafter]
        · have hd2 : isWs d = false := Bool.eq_false_iff.mpr hd
          have hwcd : wch c = wch d := hq.1 hc hd2
          rw [insBoth_cons2, if_neg (by rw [hwcd]; simp)]
          rw [collapseWs_cons, if_neg (by simp [hc])]
          rw [ih (d :: N2) (by simp at hlen ⊢; omega)
            (fun x hx => hws x (List.mem_cons_of_mem _ hx))
            (adjOK_tail noWW c _ hnoww) (adjOK_tail wQ c _ hq)
            (fun b hb => by cases Option.some.inj hb; exact hd2)
            (fun b hb => hlast b (by rw [List.getLast?_cons_cons]; exact hb))]

theorem strip_fixed (N : List Char)
    (hhead : ∀ b, N.head? = some b → isWs b = false)
    (hlast : ∀ b, N.getLast? = some b → isWs b = false) : strip N = N := by
  rw [strip]
  have h1 : N.dropWhile isWs = N := by
    cases N with
    | nil => rfl
    | cons c rest =>
      rw [List.dropWhile_cons, if_neg (by simp [hhead c rfl])]
  rw [h1]
  have h2 : N.reverse.dropWhile isWs = N.reverse := by
    cases hr : N.reverse with
    | nil => rfl
    | cons c rest =>
      have hcl : N.getLast? = some c := by rw [← List.head?_reverse, hr]; rfl
      rw [List.dropWhile_cons, if_neg (by simp [hlast c hcl])]
  rw [h2, List.reverse_reverse]

theorem norm_fixed (N : List Char) (h : IsNorm N) : normalize N = N := by
  rw [normalize_eq, map_cf_fixed N h.cfFix,
    collapse_insBoth_fixed N.length N (le_refl _) h.wsSp h.noww h.adjq h.headOk h.lastOk,
    strip_fixed N h.headOk h.lastOk]

/-- Claim C9: the normalizer is idempotent: normalizing an already
normalized string returns it unchanged. -/
theorem normalize_idem (s : List Char) : normalize (normalize s) = normalize s :=
  norm_fixed (normalize s) (isNorm_normalize s)

end CsTrans
